import Mathlib

/-!
Verification of `performance_info.py`: a shallow embedding of its four
components (LogStorage, DataProvider, LogCollector, DataAnalyzer) and
proofs of the specification claims about them.

Values extracted from log lines are modelled as exact rationals; the
sample standard deviation, which Python computes as a floating-point
square root, is modelled as the real square root of the exact sample
variance.
-/

namespace PerfInfo

/-! ## DataAnalyzer: statistics over per-key value lists

Embeds `statistics.mean`, `min`, `max`, `DataAnalyzer._percentile`,
`statistics.stdev` (guarded by `len(values) > 1`) and the row/report
construction of `DataAnalyzer.analyze`.
-/

/-- Embedding of `statistics.mean(values)`: the exact sum divided by the
length (Python's `statistics.mean` computes with exact fractions before
converting back to float). -/
def pymean (l : List ℚ) : ℚ := l.foldl (· + ·) 0 / l.length

/-- Embedding of Python `min(values)` on a non-empty list (a left fold of
binary `min` over the elements); the `[]` case is junk, never reached by
`analyze` because every value list is non-empty. -/
def pymin : List ℚ → ℚ
  | [] => 0
  | x :: xs => xs.foldl min x

/-- Embedding of Python `max(values)` on a non-empty list. -/
def pymax : List ℚ → ℚ
  | [] => 0
  | x :: xs => xs.foldl max x

/-- Embedding of `DataAnalyzer._percentile(data, percentile)`:
`sorted(data)[int(math.ceil(size * percentile)) - 1]` with the index
taken on the ascending sort of the list (out-of-range default 0 is junk,
never reached for a non-empty list and a percentile in (0, 1]). -/
def percentile (l : List ℚ) (p : ℚ) : ℚ :=
  (l.insertionSort (· ≤ ·)).getD (⌈(l.length : ℚ) * p⌉ - 1).toNat 0

/-- The exact sample variance `sum((x - mean)^2) / (n - 1)` that
`statistics.stdev` takes the square root of. -/
def sampleVariance (l : List ℚ) : ℚ :=
  (l.map (fun x => (x - pymean l) ^ 2)).sum / ((l.length : ℚ) - 1)

/-- Embedding of `statistics.stdev(values)`: the square root of the
sample variance, as a real number. -/
noncomputable def pystdev (l : List ℚ) : ℝ := Real.sqrt (sampleVariance l)

/-- One data row of the report: the per-key statistics computed in the
body of the loop in `DataAnalyzer.analyze`. -/
structure Row where
  key : String
  mean : ℚ
  stdev : ℝ
  relative : ℝ
  minVal : ℚ
  maxVal : ℚ
  p70 : ℚ
  p80 : ℚ
  p90 : ℚ
  p95 : ℚ

/-- The statistics row `analyze` computes for one key: `mean`, guarded
`stdev` (`statistics.stdev(values) if len(values) > 1 else 0`), guarded
relative stdev (`stdev / mean if mean else -1`), `min`, `max`, and the
70/80/90/95 percentiles. -/
noncomputable def rowFor (key : String) (values : List ℚ) : Row :=
  let mean := pymean values
  let stdev : ℝ := if 1 < values.length then pystdev values else 0
  { key := key
    mean := mean
    stdev := stdev
    relative := if mean ≠ 0 then stdev / (mean : ℝ) else -1
    minVal := pymin values
    maxVal := pymax values
    p70 := percentile values (70 / 100)
    p80 := percentile values (80 / 100)
    p90 := percentile values (90 / 100)
    p95 := percentile values (95 / 100) }

/-- One line of the report text: the fixed header line, or a data row. -/
inductive Line where
  | header
  | row (r : Row)

/-- Embedding of `DataAnalyzer.analyze`: the report is the header line
followed by one row per key, the keys visited in ascending sorted order
(`for key in sorted(data.keys())`), each row computed from that key's
value list. The data mapping is an insertion-ordered association list,
as a Python dict is. -/
noncomputable def analyze (data : List (String × List ℚ)) : List Line :=
  Line.header ::
    (List.insertionSort (· ≤ ·) (data.map Prod.fst)).map
      (fun k => Line.row (rowFor k ((data.lookup k).getD [])))

theorem pymean_eq_sum_div (l : List ℚ) : pymean l = l.sum / l.length := by
  rw [pymean, List.sum_eq_foldl]

theorem foldl_min_mem (xs : List ℚ) (x : ℚ) :
    xs.foldl min x = x ∨ xs.foldl min x ∈ xs := by
  induction xs generalizing x with
  | nil => left; rfl
  | cons y ys ih =>
    rw [List.foldl_cons]
    rcases ih (min x y) with h | h
    · rcases min_choice x y with h2 | h2
      · left; rw [h, h2]
      · right; rw [h, h2]; exact List.mem_cons_self y ys
    · right; exact List.mem_cons_of_mem y h

theorem foldl_min_le (xs : List ℚ) (x : ℚ) :
    xs.foldl min x ≤ x ∧ ∀ y ∈ xs, xs.foldl min x ≤ y := by
  induction xs generalizing x with
  | nil => exact ⟨le_refl x, by simp⟩
  | cons y ys ih =>
    obtain ⟨h1, h2⟩ := ih (min x y)
    rw [List.foldl_cons]
    refine ⟨le_trans h1 (min_le_left x y), ?_⟩
    intro z hz
    rcases List.mem_cons.mp hz with rfl | hz
    · exact le_trans h1 (min_le_right x z)
    · exact h2 z hz

theorem foldl_max_mem (xs : List ℚ) (x : ℚ) :
    xs.foldl max x = x ∨ xs.foldl max x ∈ xs := by
  induction xs generalizing x with
  | nil => left; rfl
  | cons y ys ih =>
    rw [List.foldl_cons]
    rcases ih (max x y) with h | h
    · rcases max_choice x y with h2 | h2
      · left; rw [h, h2]
      · right; rw [h, h2]; exact List.mem_cons_self y ys
    · right; exact List.mem_cons_of_mem y h

theorem foldl_max_ge (xs : List ℚ) (x : ℚ) :
    x ≤ xs.foldl max x ∧ ∀ y ∈ xs, y ≤ xs.foldl max x := by
  induction xs generalizing x with
  | nil => exact ⟨le_refl x, by simp⟩
  | cons y ys ih =>
    obtain ⟨h1, h2⟩ := ih (max x y)
    rw [List.foldl_cons]
    refine ⟨le_trans (le_max_left x y) h1, ?_⟩
    intro z hz
    rcases List.mem_cons.mp hz with rfl | hz
    · exact le_trans (le_max_right x z) h1
    · exact h2 z hz

theorem pymin_mem (l : List ℚ) (h : l ≠ []) : pymin l ∈ l := by
  match l with
  | x :: xs =>
    rw [pymin]
    rcases foldl_min_mem xs x with h2 | h2
    · rw [h2]; exact List.mem_cons_self x xs
    · exact List.mem_cons_of_mem x h2

theorem pymin_le (l : List ℚ) (y : ℚ) (hy : y ∈ l) : pymin l ≤ y := by
  match l with
  | x :: xs =>
    rw [pymin]
    rcases List.mem_cons.mp hy with rfl | hy
    · exact (foldl_min_le xs y).1
    · exact (foldl_min_le xs x).2 y hy

theorem pymax_mem (l : List ℚ) (h : l ≠ []) : pymax l ∈ l := by
  match l with
  | x :: xs =>
    rw [pymax]
    rcases foldl_max_mem xs x with h2 | h2
    · rw [h2]; exact List.mem_cons_self x xs
    · exact List.mem_cons_of_mem x h2

theorem le_pymax (l : List ℚ) (y : ℚ) (hy : y ∈ l) : y ≤ pymax l := by
  match l with
  | x :: xs =>
    rw [pymax]
    rcases List.mem_cons.mp hy with rfl | hy
    · exact (foldl_max_ge xs y).1
    · exact (foldl_max_ge xs x).2 y hy

theorem percentile_index_lt (l : List ℚ) (p : ℚ) (hl : l ≠ []) (hp1 : p ≤ 1) :
    (⌈(l.length : ℚ) * p⌉ - 1).toNat < (l.insertionSort (· ≤ ·)).length := by
  rw [List.length_insertionSort]
  have hn : 0 < l.length := List.length_pos.mpr hl
  have hub : ⌈(l.length : ℚ) * p⌉ ≤ (l.length : ℤ) := by
    rw [Int.ceil_le]
    push_cast
    nlinarith [hn]
  omega

theorem percentile_mem (l : List ℚ) (p : ℚ) (hl : l ≠ []) (hp1 : p ≤ 1) :
    percentile l p ∈ l := by
  have h := percentile_index_lt l p hl hp1
  rw [percentile, List.getD_eq_getElem _ _ h]
  exact (List.mem_insertionSort _).mp (List.getElem_mem h)

theorem percentile_mono (l : List ℚ) {p q : ℚ} (hl : l ≠ [])
    (hpq : p ≤ q) (hq1 : q ≤ 1) :
    percentile l p ≤ percentile l q := by
  have hip := percentile_index_lt l p hl (le_trans hpq hq1)
  have hiq := percentile_index_lt l q hl hq1
  rw [percentile, percentile, List.getD_eq_getElem _ _ hip, List.getD_eq_getElem _ _ hiq]
  have hsorted : (l.insertionSort (· ≤ ·)).Sorted (· ≤ ·) := List.sorted_insertionSort _ l
  have hidx : (⌈(l.length : ℚ) * p⌉ - 1).toNat ≤ (⌈(l.length : ℚ) * q⌉ - 1).toNat := by
    have hc : ⌈(l.length : ℚ) * p⌉ ≤ ⌈(l.length : ℚ) * q⌉ := by
      apply Int.ceil_le_ceil
      have hn : (0 : ℚ) ≤ (l.length : ℚ) := by positivity
      nlinarith
    omega
  exact hsorted.rel_get_of_le hidx

theorem rowFor_mean_eq (k : String) (values : List ℚ) :
    (rowFor k values).mean = pymean values := by
  simp [rowFor]

theorem rowFor_minVal_eq (k : String) (values : List ℚ) :
    (rowFor k values).minVal = pymin values := by
  simp [rowFor]

theorem rowFor_maxVal_eq (k : String) (values : List ℚ) :
    (rowFor k values).maxVal = pymax values := by
  simp [rowFor]

/-- C6: for every key with a non-empty value list, the mean computed for
the row of `DataAnalyzer.analyze` equals the sum of the values divided by
their count, and the reported min and max are respectively a least and a
greatest element of the value list. -/
theorem rowFor_mean_min_max (k : String) (values : List ℚ) (h : values ≠ []) :
    (rowFor k values).mean = values.sum / values.length ∧
    ((rowFor k values).minVal ∈ values ∧
      ∀ x ∈ values, (rowFor k values).minVal ≤ x) ∧
    ((rowFor k values).maxVal ∈ values ∧
      ∀ x ∈ values, x ≤ (rowFor k values).maxVal) := by
  rw [rowFor_mean_eq, rowFor_minVal_eq, rowFor_maxVal_eq, pymean_eq_sum_div]
  exact ⟨rfl, ⟨pymin_mem _ h, fun x hx => pymin_le _ x hx⟩,
    ⟨pymax_mem _ h, fun x hx => le_pymax _ x hx⟩⟩

/-- Witness for C6 at the concrete input key "a", values [2, 4]. -/
theorem rowFor_mean_min_max_witness :
    ([(2 : ℚ), 4] ≠ [] ∧
    (rowFor "a" [2, 4]).mean = ([(2 : ℚ), 4]).sum / ([(2 : ℚ), 4]).length ∧
    ((rowFor "a" [2, 4]).minVal ∈ [(2 : ℚ), 4] ∧
      ∀ x ∈ [(2 : ℚ), 4], (rowFor "a" [2, 4]).minVal ≤ x) ∧
    ((rowFor "a" [2, 4]).maxVal ∈ [(2 : ℚ), 4] ∧
      ∀ x ∈ [(2 : ℚ), 4], x ≤ (rowFor "a" [2, 4]).maxVal)) :=
  ⟨by decide, rowFor_mean_min_max "a" [2, 4] (by decide)⟩

theorem rowFor_p70_eq (k : String) (values : List ℚ) :
    (rowFor k values).p70 = percentile values (70 / 100) := by
  simp [rowFor]

theorem rowFor_p80_eq (k : String) (values : List ℚ) :
    (rowFor k values).p80 = percentile values (80 / 100) := by
  simp [rowFor]

theorem rowFor_p90_eq (k : String) (values : List ℚ) :
    (rowFor k values).p90 = percentile values (90 / 100) := by
  simp [rowFor]

theorem rowFor_p95_eq (k : String) (values : List ℚ) :
    (rowFor k values).p95 = percentile values (95 / 100) := by
  simp [rowFor]

/-- C8: for a non-empty value list, each of the four reported percentiles
(the element of the ascending sort at 1-based position ceil(n*p), for p
in 0.70, 0.80, 0.90, 0.95) is an element of the list and lies between the
reported min and max, and the four percentiles are monotone:
p70 ≤ p80 ≤ p90 ≤ p95. -/
theorem rowFor_percentiles_sound (k : String) (values : List ℚ) (h : values ≠ []) :
    ((rowFor k values).p70 ∈ values ∧ (rowFor k values).p80 ∈ values ∧
      (rowFor k values).p90 ∈ values ∧ (rowFor k values).p95 ∈ values) ∧
    (∀ p ∈ [(rowFor k values).p70, (rowFor k values).p80,
        (rowFor k values).p90, (rowFor k values).p95],
      (rowFor k values).minVal ≤ p ∧ p ≤ (rowFor k values).maxVal) ∧
    ((rowFor k values).p70 ≤ (rowFor k values).p80 ∧
      (rowFor k values).p80 ≤ (rowFor k values).p90 ∧
      (rowFor k values).p90 ≤ (rowFor k values).p95) := by
  rw [rowFor_p70_eq, rowFor_p80_eq, rowFor_p90_eq, rowFor_p95_eq,
    rowFor_minVal_eq, rowFor_maxVal_eq]
  have h70 := percentile_mem values (70 / 100) h (by norm_num)
  have h80 := percentile_mem values (80 / 100) h (by norm_num)
  have h90 := percentile_mem values (90 / 100) h (by norm_num)
  have h95 := percentile_mem values (95 / 100) h (by norm_num)
  refine ⟨⟨h70, h80, h90, h95⟩, ?_, ?_, ?_, ?_⟩
  · intro p hp
    have hmem : p ∈ values := by
      simp only [List.mem_cons, List.not_mem_nil, or_false] at hp
      rcases hp with rfl | rfl | rfl | rfl
      · exact h70
      · exact h80
      · exact h90
      · exact h95
    exact ⟨pymin_le _ p hmem, le_pymax _ p hmem⟩
  · exact percentile_mono values h (by norm_num) (by norm_num)
  · exact percentile_mono values h (by norm_num) (by norm_num)
  · exact percentile_mono values h (by norm_num) (by norm_num)

/-- Witness for C8 at the concrete input key "a", values [3, 1, 2]. -/
theorem rowFor_percentiles_sound_witness :
    ([(3 : ℚ), 1, 2] ≠ [] ∧
    (((rowFor "a" [3, 1, 2]).p70 ∈ [(3 : ℚ), 1, 2] ∧
      (rowFor "a" [3, 1, 2]).p80 ∈ [(3 : ℚ), 1, 2] ∧
      (rowFor "a" [3, 1, 2]).p90 ∈ [(3 : ℚ), 1, 2] ∧
      (rowFor "a" [3, 1, 2]).p95 ∈ [(3 : ℚ), 1, 2]) ∧
    (∀ p ∈ [(rowFor "a" [3, 1, 2]).p70, (rowFor "a" [3, 1, 2]).p80,
        (rowFor "a" [3, 1, 2]).p90, (rowFor "a" [3, 1, 2]).p95],
      (rowFor "a" [3, 1, 2]).minVal ≤ p ∧ p ≤ (rowFor "a" [3, 1, 2]).maxVal) ∧
    ((rowFor "a" [3, 1, 2]).p70 ≤ (rowFor "a" [3, 1, 2]).p80 ∧
      (rowFor "a" [3, 1, 2]).p80 ≤ (rowFor "a" [3, 1, 2]).p90 ∧
      (rowFor "a" [3, 1, 2]).p90 ≤ (rowFor "a" [3, 1, 2]).p95))) :=
  ⟨by decide, rowFor_percentiles_sound "a" [3, 1, 2] (by decide)⟩

/-- C9: the guarded branches of `DataAnalyzer.analyze` on degenerate
inputs: a value list of length exactly 1 gets stdev 0 (the sample-stdev
computation is skipped), and a zero mean yields the sentinel -1 for
stdev/mean (no division is performed). -/
theorem rowFor_degenerate (k : String) (values : List ℚ) :
    (values.length = 1 → (rowFor k values).stdev = 0) ∧
    (pymean values = 0 → (rowFor k values).relative = -1) := by
  constructor
  · intro h1
    simp [rowFor, h1]
  · intro h0
    simp [rowFor, h0]

/-- Witness for C9 at the concrete value list [0] (length 1, mean 0). -/
theorem rowFor_degenerate_witness :
    (rowFor "a" [(0 : ℚ)]).stdev = 0 ∧ (rowFor "a" [(0 : ℚ)]).relative = -1 :=
  ⟨(rowFor_degenerate "a" [0]).1 (by decide),
   (rowFor_degenerate "a" [0]).2 (by simp [pymean])⟩

theorem rowFor_key_eq (k : String) (values : List ℚ) : (rowFor k values).key = k := by
  simp [rowFor]

theorem lookup_eq_of_mem {β : Type} (data : List (String × β))
    (hnd : (data.map Prod.fst).Nodup) (k : String) (v : β) (h : (k, v) ∈ data) :
    data.lookup k = some v := by
  induction data with
  | nil => cases h
  | cons a as ih =>
    rw [List.map_cons, List.nodup_cons] at hnd
    rcases List.mem_cons.mp h with he | h2
    · rw [← he]
      simp [List.lookup]
    · obtain ⟨k1, v1⟩ := a
      have hk : (k == k1) = false := by
        apply beq_eq_false_iff_ne.mpr
        intro he2
        apply hnd.1
        rw [← he2]
        exact List.mem_map.mpr ⟨(k, v), h2, rfl⟩
      simp only [List.lookup, hk]
      exact ih hnd.2 h2

/-- C2: for a non-empty data mapping with distinct keys and non-empty
value lists, the report built by `DataAnalyzer.analyze` is one header
line followed by exactly one row per key of the mapping, and the row for
each key carries the statistics `rowFor` computes from that key's value
list. -/
theorem analyze_structure (data : List (String × List ℚ)) (hne : data ≠ [])
    (hnd : (data.map Prod.fst).Nodup) (hvals : ∀ kv ∈ data, kv.2 ≠ []) :
    (analyze data).length = data.length + 1 ∧
    (analyze data).head? = some Line.header ∧
    ∀ kv ∈ data, Line.row (rowFor kv.1 kv.2) ∈ analyze data := by
  refine ⟨?_, rfl, ?_⟩
  · rw [analyze]
    simp [List.length_insertionSort]
  · intro kv hkv
    rw [analyze]
    apply List.mem_cons_of_mem
    apply List.mem_map.mpr
    refine ⟨kv.1, (List.mem_insertionSort _).mpr (List.mem_map_of_mem Prod.fst hkv), ?_⟩
    rw [lookup_eq_of_mem data hnd kv.1 kv.2 hkv]
    rfl

/-- Witness for C2 at the concrete mapping [("a", [1])]. -/
theorem analyze_structure_witness :
    (([(("a" : String), [(1 : ℚ)])]) ≠ [] ∧
      ((([(("a" : String), [(1 : ℚ)])]).map Prod.fst).Nodup) ∧
      (∀ kv ∈ [(("a" : String), [(1 : ℚ)])], kv.2 ≠ []) ∧
      ((analyze [(("a" : String), [(1 : ℚ)])]).length
          = ([(("a" : String), [(1 : ℚ)])]).length + 1 ∧
        (analyze [(("a" : String), [(1 : ℚ)])]).head? = some Line.header ∧
        ∀ kv ∈ [(("a" : String), [(1 : ℚ)])],
          Line.row (rowFor kv.1 kv.2) ∈ analyze [(("a" : String), [(1 : ℚ)])])) :=
  ⟨by decide, by decide, by decide,
    analyze_structure [("a", [1])] (by decide) (by decide) (by decide)⟩

/-- The key a report line reports, if it is a data row. -/
def lineKey : Line → Option String
  | Line.header => none
  | Line.row r => some r.key

/-- C10: the data rows of the report appear in ascending sorted order of
key, and the report is invariant under reordering of the key-to-values
mapping (so it is a deterministic function of the mapping, not of the
insertion order of `DataProvider`). -/
theorem analyze_sorted_deterministic (d1 d2 : List (String × List ℚ))
    (hnd : (d1.map Prod.fst).Nodup) (hperm : List.Perm d1 d2) :
    ((analyze d1).filterMap lineKey).Sorted (· ≤ ·) ∧ analyze d1 = analyze d2 := by
  constructor
  · have hkeys : (analyze d1).filterMap lineKey
        = List.insertionSort (· ≤ ·) (d1.map Prod.fst) := by
      rw [analyze]
      simp [lineKey, List.filterMap_map, Function.comp_def, rowFor_key_eq]
    rw [hkeys]
    exact List.sorted_insertionSort _ _
  · have hkperm : List.Perm (d1.map Prod.fst) (d2.map Prod.fst) := hperm.map Prod.fst
    have hnd2 : (d2.map Prod.fst).Nodup := hkperm.nodup_iff.mp hnd
    have hsorteq : List.insertionSort (· ≤ ·) (d1.map Prod.fst)
        = List.insertionSort (· ≤ ·) (d2.map Prod.fst) :=
      List.eq_of_perm_of_sorted
        ((List.perm_insertionSort _ _).trans
          (hkperm.trans (List.perm_insertionSort _ _).symm))
        (List.sorted_insertionSort _ _) (List.sorted_insertionSort _ _)
    rw [analyze, analyze, hsorteq]
    congr 1
    apply List.map_congr_left
    intro k hk
    have hk2 : k ∈ d2.map Prod.fst := (List.mem_insertionSort _).mp hk
    obtain ⟨⟨k1, v⟩, hmem, he⟩ := List.mem_map.mp hk2
    cases he
    rw [lookup_eq_of_mem d2 hnd2 k1 v hmem,
      lookup_eq_of_mem d1 hnd k1 v (hperm.mem_iff.mpr hmem)]

/-- Witness for C10 at the two orderings of the mapping with keys "b"
and "a". -/
theorem analyze_sorted_deterministic_witness :
    ((([(("b" : String), [(1 : ℚ)]), ("a", [2])]).map Prod.fst).Nodup ∧
      List.Perm [(("b" : String), [(1 : ℚ)]), ("a", [2])]
        [(("a" : String), [(2 : ℚ)]), ("b", [1])] ∧
      (((analyze [(("b" : String), [(1 : ℚ)]), ("a", [2])]).filterMap lineKey).Sorted
          (· ≤ ·) ∧
        analyze [(("b" : String), [(1 : ℚ)]), ("a", [2])]
          = analyze [(("a" : String), [(2 : ℚ)]), ("b", [1])])) :=
  ⟨by decide, List.Perm.swap ("a", [2]) ("b", [1]) [],
    analyze_sorted_deterministic _ _ (by decide)
      (List.Perm.swap ("a", [2]) ("b", [1]) [])⟩

/-! ## LogStorage: indexed log files under a name stem

Embeds `LogStorage.__init__` (which globs `'{prefix}*'` and calls
`os.remove` on every match), `open_index` (which closes the current file
and opens `'{prefix}{index:03}.log'` for writing, truncating it),
`append` and `close`. The filesystem is a map from file names to
contents; writes are modelled as immediate. -/

/-- A flat filesystem: a file name has contents exactly when the file
exists. -/
def FSys := String → Option String

/-- The state of a `LogStorage`: the configured file-name stem
(`name_prefix` in the source), the name of the currently open indexed
file (`self._out`), and the filesystem it writes to. -/
structure StorageSt where
  stem : String
  out : Option String
  fs : FSys

/-- The big-endian decimal digit characters of `n` (empty for 0), i.e.
Python's decimal numeral before zero padding. -/
def natDigitsStr (n : Nat) : List Char :=
  ((Nat.digits 10 n).map (fun d => Char.ofNat (48 + d))).reverse

/-- Embedding of the format `'{:03}'.format(i)`: the decimal numeral of
`i` left-padded with zeros to at least three characters. -/
def pad3 (n : Nat) : String :=
  ⟨List.replicate (3 - (natDigitsStr n).length) '0' ++ natDigitsStr n⟩

/-- The file name `'{}{:03}.log'.format(self._name_prefix, index)` that
`open_index` opens. -/
def fileNameFor (stem : String) (i : Nat) : String := stem ++ pad3 i ++ ".log"

/-- Embedding of `LogStorage.__init__`: every file whose name starts
with the stem is removed (`os.remove` over `glob.glob('{prefix}*')`),
and no file is open. -/
def stInit (stem : String) (fs : FSys) : StorageSt :=
  ⟨stem, none, fun n => if stem.data.isPrefixOf n.data then none else fs n⟩

/-- Embedding of `LogStorage.close`: forget the open file (its contents
are already in the filesystem in this model). -/
def stClose (st : StorageSt) : StorageSt := ⟨st.stem, none, st.fs⟩

/-- Embedding of `LogStorage.open_index`: close the current file, then
open `'{prefix}{index:03}.log'` in mode `'w'`, which truncates or
creates it and makes it the append target. -/
def stOpenIndex (st : StorageSt) (i : Nat) : StorageSt :=
  let name := fileNameFor st.stem i
  let st1 := stClose st
  ⟨st1.stem, some name, fun n => if n = name then some "" else st1.fs n⟩

/-- Embedding of `LogStorage.append`: write the line to the open file;
with no open file `self._out.write` raises (`none`). -/
def stAppend (st : StorageSt) (line : String) : Option StorageSt :=
  match st.out with
  | none => none
  | some name => some ⟨st.stem, some name,
      fun n => if n = name then (st.fs n).map (fun c => c ++ line) else st.fs n⟩

/-- A sequence of `append` calls. -/
def stAppendAll (st : StorageSt) (lines : List String) : Option StorageSt :=
  lines.foldlM stAppend st

/-- Decode a decimal character numeral (possibly zero-padded) back to
the number it denotes. -/
def digitsVal (cs : List Char) : Nat :=
  Nat.ofDigits 10 ((cs.map (fun c => c.toNat - 48)).reverse)

theorem ofDigits_replicate_zero (k : Nat) :
    Nat.ofDigits 10 (List.replicate k 0) = 0 := by
  induction k with
  | zero => rfl
  | succ m ih => simp [List.replicate_succ, Nat.ofDigits_cons, ih]

theorem digitVal_digitChar (d : Nat) (hd : d < 10) :
    (Char.ofNat (48 + d)).toNat - 48 = d := by
  interval_cases d <;> decide

theorem digitsVal_pad3 (n : Nat) : digitsVal (pad3 n).data = n := by
  rw [pad3, digitsVal]
  have hdata : ((⟨List.replicate (3 - (natDigitsStr n).length) '0'
      ++ natDigitsStr n⟩ : String)).data
      = List.replicate (3 - (natDigitsStr n).length) '0' ++ natDigitsStr n := rfl
  rw [hdata, List.map_append, List.map_replicate, natDigitsStr, List.map_reverse,
    List.map_map]
  have hmap : (Nat.digits 10 n).map ((fun c => c.toNat - 48)
      ∘ (fun d => Char.ofNat (48 + d))) = Nat.digits 10 n := by
    rw [show Nat.digits 10 n = (Nat.digits 10 n).map id by rw [List.map_id]]
    rw [List.map_map]
    apply List.map_congr_left
    intro d hd
    simp only [Function.comp_apply, id]
    exact digitVal_digitChar d (Nat.digits_lt_base (by norm_num) (by simpa using hd))
  rw [hmap]
  have hch : ('0').toNat - 48 = 0 := by decide
  rw [hch, List.reverse_append, List.reverse_reverse, List.reverse_replicate]
  rw [Nat.ofDigits_append, Nat.ofDigits_digits, ofDigits_replicate_zero]
  ring

theorem pad3_injective {a b : Nat} (h : pad3 a = pad3 b) : a = b := by
  have hd : (pad3 a).data = (pad3 b).data := by rw [h]
  rw [← digitsVal_pad3 a, ← digitsVal_pad3 b, hd]

theorem fileNameFor_inj (stem : String) {i j : Nat}
    (h : fileNameFor stem i = fileNameFor stem j) : i = j := by
  apply pad3_injective
  rw [fileNameFor, fileNameFor] at h
  have hd : stem.data ++ ((pad3 i).data ++ ".log".data)
      = stem.data ++ ((pad3 j).data ++ ".log".data) := by
    have h2 : (stem ++ pad3 i ++ ".log").data = (stem ++ pad3 j ++ ".log").data := by
      rw [h]
    simpa [String.data_append, List.append_assoc] using h2
  have h3 : (pad3 i).data = (pad3 j).data :=
    List.append_cancel_right (List.append_cancel_left hd)
  exact String.ext h3

/-- C4 counterexample: over a filesystem holding the file "log_000.log"
with contents "x", constructing a LogStorage with stem "log_" does not
leave that file truncated to empty contents: `__init__` calls
`os.remove` on every glob match, so the file no longer exists at all. -/
theorem stInit_not_truncating :
    ¬ ((stInit "log_" (fun n => if n = "log_000.log" then some "x" else none)).fs
        "log_000.log" = some "") := by
  decide

/-- C4 (amended): constructing a LogStorage with a given name stem
deletes every pre-existing file whose name starts with the stem, so that
afterwards no file matching the stem exists, and hence no data from a
previous run can appear in files matching the stem. -/
theorem stInit_clears (stem : String) (fs : FSys) (name : String)
    (h : stem.data.isPrefixOf name.data = true) :
    (stInit stem fs).fs name = none := by
  have h2 : stem.data <+: name.data := by
    rw [← List.isPrefixOf_iff_prefix]
    exact h
  simp [stInit, h2]

/-- Witness for the amended C4 at stem "log_" and the pre-existing file
"log_001.log". -/
theorem stInit_clears_witness :
    ("log_").data.isPrefixOf ("log_001.log").data = true ∧
    (stInit "log_" (fun n => if n = "log_001.log" then some "y" else none)).fs
      "log_001.log" = none :=
  ⟨by decide, stInit_clears "log_" _ "log_001.log" (by decide)⟩

/-- The concatenation of a list of appended lines. -/
def strConcat (ls : List String) : String := ls.foldr (· ++ ·) ""

theorem stAppendAll_open (lines : List String) (st : StorageSt)
    (name acc : String) (hout : st.out = some name)
    (hfs : st.fs name = some acc) :
    ∃ st2, stAppendAll st lines = some st2 ∧ st2.stem = st.stem ∧
      st2.out = some name ∧ st2.fs name = some (acc ++ strConcat lines) ∧
      ∀ n, n ≠ name → st2.fs n = st.fs n := by
  induction lines generalizing st acc with
  | nil =>
    refine ⟨st, rfl, rfl, hout, ?_, fun n _ => rfl⟩
    rw [hfs]
    simp [strConcat]
  | cons l ls ih =>
    have hstep : stAppend st l = some ⟨st.stem, some name,
        fun n => if n = name then (st.fs n).map (fun c => c ++ l) else st.fs n⟩ := by
      rw [stAppend, hout]
    obtain ⟨st2, h1, h2, h3, h4, h5⟩ := ih
      ⟨st.stem, some name,
        fun n => if n = name then (st.fs n).map (fun c => c ++ l) else st.fs n⟩
      (acc ++ l) rfl (by simp [hfs])
    refine ⟨st2, ?_, h2, h3, ?_, ?_⟩
    · rw [stAppendAll, List.foldlM_cons, hstep]
      exact h1
    · rw [h4]
      rw [show strConcat (l :: ls) = l ++ strConcat ls from rfl, String.append_assoc]
    · intro n hn
      rw [h5 n hn]
      simp [hn]

/-- C7: `open_index i` closes the previous file and makes the file named
`'{prefix}{i:03}.log'` (the stem followed by the index zero-padded to at
least three digits) the open append target; subsequently appended lines
accumulate in exactly that file; distinct indices yield distinct file
names, and opening a later index leaves the earlier file's contents
untouched. -/
theorem stOpenIndex_spec (st : StorageSt) (i j : Nat) (lines : List String)
    (hij : i ≠ j) :
    (stOpenIndex st i).out = some (fileNameFor st.stem i) ∧
    fileNameFor st.stem i ≠ fileNameFor st.stem j ∧
    ∃ st2, stAppendAll (stOpenIndex st i) lines = some st2 ∧
      st2.fs (fileNameFor st.stem i) = some (strConcat lines) ∧
      (stOpenIndex st2 j).out = some (fileNameFor st.stem j) ∧
      (stOpenIndex st2 j).fs (fileNameFor st.stem i) = some (strConcat lines) := by
  have hne : fileNameFor st.stem i ≠ fileNameFor st.stem j := fun he =>
    hij (fileNameFor_inj _ he)
  refine ⟨rfl, hne, ?_⟩
  obtain ⟨st2, h1, h2, h3, h4, h5⟩ := stAppendAll_open lines (stOpenIndex st i)
    (fileNameFor st.stem i) "" rfl (by simp [stOpenIndex])
  have hstem : st2.stem = st.stem := h2
  have hcontents : st2.fs (fileNameFor st.stem i) = some (strConcat lines) := by
    rw [h4]
    simp
  refine ⟨st2, h1, hcontents, ?_, ?_⟩
  · rw [show (stOpenIndex st2 j).out = some (fileNameFor st2.stem j) from rfl, hstem]
  · rw [show (stOpenIndex st2 j).fs = fun n =>
        if n = fileNameFor st2.stem j then some "" else st2.fs n from rfl]
    simp only [hstem]
    rw [if_neg hne]
    exact hcontents

/-- Witness for C7 at stem "log_", indices 0 and 1, appended lines
["a\n", "b\n"]. -/
theorem stOpenIndex_spec_witness :
    ((0 : Nat) ≠ 1 ∧
    ((stOpenIndex (stInit "log_" (fun _ => none)) 0).out
        = some (fileNameFor (stInit "log_" (fun _ => none)).stem 0) ∧
      fileNameFor (stInit "log_" (fun _ => none)).stem 0
        ≠ fileNameFor (stInit "log_" (fun _ => none)).stem 1 ∧
      ∃ st2, stAppendAll (stOpenIndex (stInit "log_" (fun _ => none)) 0)
          ["a\n", "b\n"] = some st2 ∧
        st2.fs (fileNameFor (stInit "log_" (fun _ => none)).stem 0)
          = some (strConcat ["a\n", "b\n"]) ∧
        (stOpenIndex st2 1).out
          = some (fileNameFor (stInit "log_" (fun _ => none)).stem 1) ∧
        (stOpenIndex st2 1).fs (fileNameFor (stInit "log_" (fun _ => none)).stem 0)
          = some (strConcat ["a\n", "b\n"]))) :=
  ⟨by decide, stOpenIndex_spec (stInit "log_" (fun _ => none)) 0 1 ["a\n", "b\n"]
    (by decide)⟩

/-! ## LogCollector.stop_task: the bounded retry loop

The i-th entry of `outcome` models the i-th invocation of
`subprocess.check_call([adb, 'shell', 'am', 'force-stop', package])`:
`true` when it returns exit code 0 (so `not check_call(...)` is true and
the loop breaks), `false` when it raises, which the `except` clause logs
before the loop retries. -/

/-- The retry loop of `stop_task` (`for i in range(5)`), returning how
many invocations were performed; the first argument is the remaining
fuel, the second the next iteration index. -/
def stopLoop (outcome : Nat → Bool) : Nat → Nat → Nat
  | 0, i => i
  | fuel + 1, i => if outcome i then i + 1 else stopLoop outcome fuel (i + 1)

/-- Embedding of `LogCollector.stop_task`: the number of `force-stop`
invocations the loop performs before returning. -/
def stopTaskCalls (outcome : Nat → Bool) : Nat := stopLoop outcome 5 0

/-- C5: `stop_task` invokes the force-stop command at most 5 times; if
the first success is at invocation k (0-based, k < 5) it performs
exactly k+1 invocations and stops retrying; and it returns after exactly
5 invocations when every invocation raises. -/
theorem stop_task_bounded_retry (outcome : Nat → Bool) :
    stopTaskCalls outcome ≤ 5 ∧
    (∀ k, k < 5 → outcome k = true → (∀ j, j < k → outcome j = false) →
      stopTaskCalls outcome = k + 1) ∧
    ((∀ j, j < 5 → outcome j = false) → stopTaskCalls outcome = 5) := by
  refine ⟨?_, ?_, ?_⟩
  · rw [stopTaskCalls]
    simp only [stopLoop]
    split_ifs <;> norm_num
  · intro k hk hsucc hbefore
    interval_cases k
    · simp [stopTaskCalls, stopLoop, hsucc]
    · simp [stopTaskCalls, stopLoop, hbefore 0 (by norm_num), hsucc]
    · simp [stopTaskCalls, stopLoop, hbefore 0 (by norm_num),
        hbefore 1 (by norm_num), hsucc]
    · simp [stopTaskCalls, stopLoop, hbefore 0 (by norm_num),
        hbefore 1 (by norm_num), hbefore 2 (by norm_num), hsucc]
    · simp [stopTaskCalls, stopLoop, hbefore 0 (by norm_num),
        hbefore 1 (by norm_num), hbefore 2 (by norm_num),
        hbefore 3 (by norm_num), hsucc]
  · intro hall
    simp [stopTaskCalls, stopLoop, hall 0 (by norm_num), hall 1 (by norm_num),
      hall 2 (by norm_num), hall 3 (by norm_num), hall 4 (by norm_num)]

/-- Witness for C5 with outcomes that fail twice then succeed: exactly
3 invocations are performed. -/
theorem stop_task_bounded_retry_witness :
    stopTaskCalls (fun n => n == 2) ≤ 5 ∧ stopTaskCalls (fun n => n == 2) = 3 :=
  ⟨(stop_task_bounded_retry (fun n => n == 2)).1,
   (stop_task_bounded_retry (fun n => n == 2)).2.1 2 (by norm_num) (by decide)
     (fun j hj => by interval_cases j <;> decide)⟩

/-! ## LogCollector.collect: restart iterations over the log stream

The logcat stream is modelled as the list of lines `readline` will
deliver; when the list is exhausted, `readline` returns the empty string
and `poll()` reports the subprocess terminated. The stop pattern's
compiled `search` is abstracted as a Boolean predicate on lines (it is a
user-supplied regex). Subprocess side effects are recorded as an event
trace; the force-stop retry loop of `stop_task` is represented by its
one effective force-stop action (its retry behaviour is verified
separately). -/

/-- External actions performed by `LogCollector`. -/
inductive Ev where
  | progress (i : Nat)
  | forceStop
  | cleanLog
  | startApp
  | openIdx (i : Nat)
  | appendLine (s : String)
  | closeFile
  | startStream
  | stopStream
deriving DecidableEq

/-- Embedding of the `while True` read loop of `_collect`: returns the
lines read during one iteration (each is forwarded to the log storage
when one is present) and the rest of the stream. An exhausted stream
means an empty read with the subprocess terminated, which breaks the
loop before any append; a read line is appended first and then ends the
iteration when it is non-empty and matches the stop pattern. -/
def readLoop (matchP : String → Bool) : List String → List String × List String
  | [] => ([], [])
  | l :: rest =>
    if matchP l = true ∧ l ≠ "" then ([l], rest)
    else
      let r := readLoop matchP rest
      (l :: r.1, r.2)

/-- The events of one iteration of the `for i in range(count)` loop of
`_collect`: optional progress callback, restart (`stop_task` then
`start_task`, the latter cleaning logcat before `am start`), and, when a
log storage is present, opening file index `i`, appending every line
read, and closing the file. -/
def iterEvents (cb storageOn : Bool) (i : Nat) (consumed : List String) : List Ev :=
  (if cb && storageOn then [Ev.progress i] else []) ++
  [Ev.forceStop, Ev.cleanLog, Ev.startApp] ++
  (if storageOn then [Ev.openIdx i] else []) ++
  (if storageOn then consumed.map Ev.appendLine else []) ++
  (if storageOn then [Ev.closeFile] else [])

/-- The iteration loop of `_collect`, threading the iteration index and
the remaining stream. -/
def collectLoop (matchP : String → Bool) (cb storageOn : Bool) :
    Nat → Nat → List String → List Ev × List String
  | 0, _, s => ([], s)
  | n + 1, i, s =>
    let r := readLoop matchP s
    let rest := collectLoop matchP cb storageOn n (i + 1) r.2
    (iterEvents cb storageOn i r.1 ++ rest.1, rest.2)

/-- Embedding of one `_collect(count, stop_pattern, log_storage)` call:
start the logcat stream, run `count` iterations, then stop the stream
and force-stop the app. -/
def collectPhase (matchP : String → Bool) (cb storageOn : Bool) (count : Nat)
    (s : List String) : List Ev × List String :=
  let r := collectLoop matchP cb storageOn count 0 s
  (Ev.startStream :: r.1 ++ [Ev.stopStream, Ev.forceStop], r.2)

/-- Embedding of `LogCollector.collect(count, stop_pattern, log_storage)`:
a warm-up `_collect(5, stop_pattern, None)` on its own logcat stream,
then the measured `_collect(count, stop_pattern, log_storage)` on a
fresh stream. -/
def collectRun (matchP : String → Bool) (cb : Bool) (count : Nat)
    (warmS measS : List String) : List Ev × List String :=
  let w := collectPhase matchP cb false 5 warmS
  let m := collectPhase matchP cb true count measS
  (w.1 ++ m.1, m.2)

/-- The index of the first line that is non-empty and matches the stop
pattern. -/
def firstMatchIdx (p : String → Bool) : List String → Option Nat
  | [] => none
  | l :: rest =>
    if p l = true ∧ l ≠ "" then some 0 else (firstMatchIdx p rest).map (· + 1)

/-- Declarative description of one iteration's reads: the prefix of the
stream up to and including the first non-empty line matching the stop
pattern, or the whole stream when no line matches (the stream ends). -/
def readSpec (matchP : String → Bool) (s : List String) :
    List String × List String :=
  match firstMatchIdx matchP s with
  | some n => (s.take (n + 1), s.drop (n + 1))
  | none => (s, [])

/-- The stream left over after `k` declarative iterations. -/
def stageStream (matchP : String → Bool) (s : List String) : Nat → List String
  | 0 => s
  | k + 1 => (readSpec matchP (stageStream matchP s k)).2

/-- Declarative trace of one `_collect` phase: for each iteration
`i < count`, in order, the restart/open events followed by the appends
of exactly the lines `readSpec` consumes from the stage-`i` stream. -/
def phaseTrace (matchP : String → Bool) (cb storageOn : Bool) (count : Nat)
    (s : List String) : List Ev :=
  Ev.startStream ::
    ((List.range count).flatMap
      (fun i => iterEvents cb storageOn i (readSpec matchP (stageStream matchP s i)).1)) ++
    [Ev.stopStream, Ev.forceStop]

theorem readLoop_eq_readSpec (matchP : String → Bool) (s : List String) :
    readLoop matchP s = readSpec matchP s := by
  induction s with
  | nil => rfl
  | cons l rest ih =>
    by_cases h : matchP l = true ∧ l ≠ ""
    · rw [readLoop, if_pos h, readSpec, firstMatchIdx, if_pos h]
      rfl
    · rw [readLoop, if_neg h, readSpec, firstMatchIdx, if_neg h, ih, readSpec]
      cases hidx : firstMatchIdx matchP rest with
      | none => simp [hidx]
      | some n => simp [hidx, List.take_succ_cons, List.drop_succ_cons]

theorem stageStream_shift (matchP : String → Bool) (s : List String) (k : Nat) :
    stageStream matchP s (k + 1)
      = stageStream matchP (readSpec matchP s).2 k := by
  induction k with
  | zero => rfl
  | succ m ih => rw [stageStream, ih, stageStream]

theorem collectLoop_succ (matchP : String → Bool) (cb storageOn : Bool)
    (m i : Nat) (s : List String) :
    collectLoop matchP cb storageOn (m + 1) i s
      = (iterEvents cb storageOn i (readLoop matchP s).1
          ++ (collectLoop matchP cb storageOn m (i + 1) (readLoop matchP s).2).1,
         (collectLoop matchP cb storageOn m (i + 1) (readLoop matchP s).2).2) :=
  rfl

theorem collectLoop_snd (matchP : String → Bool) (cb storageOn : Bool)
    (n : Nat) : ∀ (i : Nat) (s : List String),
    (collectLoop matchP cb storageOn n i s).2 = stageStream matchP s n := by
  induction n with
  | zero => intro i s; rfl
  | succ m ih =>
    intro i s
    rw [collectLoop_succ]
    rw [show (iterEvents cb storageOn i (readLoop matchP s).1
          ++ (collectLoop matchP cb storageOn m (i + 1) (readLoop matchP s).2).1,
         (collectLoop matchP cb storageOn m (i + 1) (readLoop matchP s).2).2).2
        = (collectLoop matchP cb storageOn m (i + 1) (readLoop matchP s).2).2
        from rfl]
    rw [ih (i + 1), readLoop_eq_readSpec, stageStream_shift]

theorem collectLoop_fst (matchP : String → Bool) (cb storageOn : Bool)
    (n : Nat) : ∀ (i : Nat) (s : List String),
    (collectLoop matchP cb storageOn n i s).1
      = (List.range n).flatMap
          (fun k => iterEvents cb storageOn (i + k)
            (readSpec matchP (stageStream matchP s k)).1) := by
  induction n with
  | zero => intro i s; rfl
  | succ m ih =>
    intro i s
    rw [collectLoop_succ]
    rw [show (iterEvents cb storageOn i (readLoop matchP s).1
          ++ (collectLoop matchP cb storageOn m (i + 1) (readLoop matchP s).2).1,
         (collectLoop matchP cb storageOn m (i + 1) (readLoop matchP s).2).2).1
        = iterEvents cb storageOn i (readLoop matchP s).1
          ++ (collectLoop matchP cb storageOn m (i + 1) (readLoop matchP s).2).1
        from rfl]
    rw [readLoop_eq_readSpec, ih (i + 1) (readSpec matchP s).2]
    rw [List.range_succ_eq_map, List.flatMap_cons, List.flatMap_map]
    have hfun : (fun k => iterEvents cb storageOn (i + 1 + k)
        (readSpec matchP (stageStream matchP (readSpec matchP s).2 k)).1)
        = (fun a => iterEvents cb storageOn (i + a.succ)
            (readSpec matchP (stageStream matchP s a.succ)).1) := by
      funext k
      rw [← stageStream_shift]
      have hik : i + 1 + k = i + (k + 1) := by omega
      rw [hik]
    rw [hfun]
    rfl

theorem readLoop_reads_until (matchP : String → Bool) (s : List String) :
    (readLoop matchP s).1 ++ (readLoop matchP s).2 = s ∧
    (∀ l ∈ (readLoop matchP s).1.dropLast, ¬(matchP l = true ∧ l ≠ "")) ∧
    (((readLoop matchP s).2 = []
        ∧ ∀ l ∈ (readLoop matchP s).1, ¬(matchP l = true ∧ l ≠ "")) ∨
      ∃ last, (readLoop matchP s).1.getLast? = some last
        ∧ matchP last = true ∧ last ≠ "") := by
  induction s with
  | nil =>
    refine ⟨rfl, ?_, Or.inl ⟨rfl, ?_⟩⟩ <;> intro l hl <;> simp [readLoop] at hl
  | cons l rest ih =>
    by_cases h : matchP l = true ∧ l ≠ ""
    · have hr : readLoop matchP (l :: rest) = ([l], rest) := by
        rw [readLoop, if_pos h]
      rw [hr]
      refine ⟨rfl, ?_, Or.inr ⟨l, rfl, h.1, h.2⟩⟩
      intro x hx
      simp at hx
    · have hr : readLoop matchP (l :: rest)
          = (l :: (readLoop matchP rest).1, (readLoop matchP rest).2) := by
        rw [readLoop, if_neg h]
      rw [hr]
      obtain ⟨ih1, ih2, ih3⟩ := ih
      refine ⟨by rw [List.cons_append, ih1], ?_, ?_⟩
      · intro x hx
        cases hc : (readLoop matchP rest).1 with
        | nil =>
          rw [hc] at hx
          simp at hx
        | cons a t =>
          rw [hc] at hx
          rw [show (l :: a :: t).dropLast = l :: (a :: t).dropLast from rfl] at hx
          rcases List.mem_cons.mp hx with rfl | hx2
          · exact h
          · apply ih2
            rw [hc]
            exact hx2
      · rcases ih3 with ⟨he, hall⟩ | ⟨last, hlast, hm, hne⟩
        · refine Or.inl ⟨he, ?_⟩
          intro x hx
          rcases List.mem_cons.mp hx with rfl | hx2
          · exact h
          · exact hall x hx2
        · refine Or.inr ⟨last, ?_, hm, hne⟩
          cases hc : (readLoop matchP rest).1 with
          | nil =>
            rw [hc] at hlast
            cases hlast
          | cons a t =>
            rw [hc] at hlast
            rw [show (l :: a :: t).getLast? = (a :: t).getLast? from rfl]
            exact hlast

theorem collectRun_eq (matchP : String → Bool) (cb : Bool) (count : Nat)
    (warmS measS : List String) :
    collectRun matchP cb count warmS measS
      = ((collectPhase matchP cb false 5 warmS).1
          ++ (collectPhase matchP cb true count measS).1,
         (collectPhase matchP cb true count measS).2) :=
  rfl

theorem collectPhase_eq (matchP : String → Bool) (cb storageOn : Bool)
    (count : Nat) (s : List String) :
    collectPhase matchP cb storageOn count s
      = (Ev.startStream :: (collectLoop matchP cb storageOn count 0 s).1
          ++ [Ev.stopStream, Ev.forceStop],
         (collectLoop matchP cb storageOn count 0 s).2) :=
  rfl

/-- C3: running `LogCollector.collect` with run count `count`, a stop
pattern and a log storage produces, after the warm-up phase, one block
per measured iteration `i < count`, each consisting of a restart of the
app (force-stop, then logcat clean and `am start`), opening log file
index `i`, appending exactly the lines read during that iteration, and
closing the file; the lines read are the prefix of the remaining stream
up to and including the first non-empty line matching the stop pattern
(`readSpec`), and when no line matches, the whole remaining stream is
read (the loop then ends on an empty read with the subprocess
terminated): no line before the last read line matches, and the last
read line matches unless the stream was exhausted. -/
theorem collect_iterations_spec (matchP : String → Bool) (cb : Bool)
    (count : Nat) (warmS measS s : List String) :
    collectRun matchP cb count warmS measS
      = (phaseTrace matchP cb false 5 warmS
          ++ phaseTrace matchP cb true count measS,
         stageStream matchP measS count) ∧
    (readSpec matchP s).1 ++ (readSpec matchP s).2 = s ∧
    (∀ l ∈ (readSpec matchP s).1.dropLast, ¬(matchP l = true ∧ l ≠ "")) ∧
    (((readSpec matchP s).2 = []
        ∧ ∀ l ∈ (readSpec matchP s).1, ¬(matchP l = true ∧ l ≠ "")) ∨
      ∃ last, (readSpec matchP s).1.getLast? = some last
        ∧ matchP last = true ∧ last ≠ "") := by
  constructor
  · rw [collectRun_eq, collectPhase_eq, collectPhase_eq]
    rw [collectLoop_fst, collectLoop_fst, collectLoop_snd]
    rw [phaseTrace, phaseTrace]
    simp only [Nat.zero_add]
    rw [collectLoop_snd]
  · rw [← readLoop_eq_readSpec]
    exact readLoop_reads_until matchP s

/-! ## DataProvider.collect: scanning files for the performance pattern

Embeds the fixed regular expression
`'\[Performance\] (.*) ([0-9\.]+) ms'` applied with `pattern.search` to
each line: the match starts at the leftmost position where the literal
tag and the rest of the pattern can match; `(.*)` is greedy and cannot
cross a newline, so the separating space is the last split point from
which ` ([0-9\.]+) ms` matches; the greedy `([0-9\.]+)` is always the
maximal digit/dot run at its position, because a shorter run would have
to be followed by a space but is followed by a digit or dot. -/

/-- A character the value group `[0-9.]` accepts. -/
def isValChar (c : Char) : Bool := c.isDigit || c == '.'

/-- Match ` ([0-9\.]+) ms` after the candidate split space: the maximal
nonempty digit/dot run, which must be followed by " ms" (characters
after that are unconstrained, as `search` does not anchor the end).
Returns group 2. -/
def tailMatch (cs : List Char) : Option (List Char) :=
  let run := cs.takeWhile isValChar
  if run.isEmpty then none
  else if (cs.drop run.length).take 3 = [' ', 'm', 's'] then some run
  else none

/-- Backtracking for the greedy `(.*)`: given the characters after the
literal `"[Performance] "`, try each split position `p` (the index of
the space separating group 1 from group 2) from the largest to the
smallest; group 1 is the prefix before `p` and may not contain a
newline. Returns (group 1, group 2) for the match found here, if any. -/
def groupSplit (rest : List Char) : Option (List Char × List Char) :=
  (List.range (rest.takeWhile (fun c => ¬(c = '\n'))).length).reverse.findSome?
    (fun p =>
      if rest.getD p '\n' = ' ' then
        (tailMatch (rest.drop (p + 1))).map (fun g2 => (rest.take p, g2))
      else none)

/-- The literal prefix of the pattern. -/
def perfTag : List Char := "[Performance] ".data

/-- Try the full pattern with the match starting exactly here. -/
def matchAt (cs : List Char) : Option (List Char × List Char) :=
  if perfTag.isPrefixOf cs then groupSplit (cs.drop perfTag.length) else none

/-- Embedding of `pattern.search(line)`: the leftmost start position
wins, as the regex engine scans start positions left to right. -/
def lineMatch : List Char → Option (List Char × List Char)
  | [] => none
  | c :: cs =>
    match matchAt (c :: cs) with
    | some r => some r
    | none => lineMatch cs

/-- The natural number denoted by a list of decimal digit characters. -/
def digitsToNat (cs : List Char) : Nat :=
  Nat.ofDigits 10 ((cs.map (fun c => c.toNat - 48)).reverse)

/-- Embedding of Python `float()` on a string drawn from `[0-9.]+` (all
group 2 can produce): it succeeds exactly when the string has at most
one dot and at least one digit, giving the exact decimal value;
otherwise (e.g. "." or "1.2.3") `float()` raises ValueError (`none`). -/
def parseVal (cs : List Char) : Option ℚ :=
  let intPart := cs.takeWhile Char.isDigit
  let rest := cs.drop intPart.length
  match rest with
  | [] => if intPart.isEmpty then none else some (digitsToNat intPart : ℚ)
  | c :: frac =>
    if c = '.' ∧ frac.all Char.isDigit ∧ ¬(intPart.isEmpty ∧ frac.isEmpty) then
      some ((digitsToNat intPart : ℚ)
        + (digitsToNat frac : ℚ) / (10 : ℚ) ^ frac.length)
    else none

/-- Embedding of the dict update in the body of `DataProvider.collect`:
append to the list of an existing key, or add the key at the end with a
one-element list (a Python dict preserves insertion order). -/
def insertVal (m : List (String × List ℚ)) (k : String) (v : ℚ) :
    List (String × List ℚ) :=
  if (m.lookup k).isSome then
    m.map (fun e => if e.1 = k then (e.1, e.2 ++ [v]) else e)
  else m ++ [(k, [v])]

/-- The line loop of `DataProvider.collect` over a list of lines:
a matching line contributes its parsed value under its key; a line whose
matched value is not numeric makes `float()` raise (`none`); any other
line contributes nothing. -/
def collectLines :
    List String → List (String × List ℚ) → Option (List (String × List ℚ))
  | [], m => some m
  | l :: ls, m =>
    match lineMatch l.data with
    | none => collectLines ls m
    | some g =>
      match parseVal g.2 with
      | none => none
      | some v => collectLines ls (insertVal m ⟨g.1⟩ v)

/-- The file loop of `DataProvider.collect`: each file's lines are
scanned in order against the shared accumulator. -/
def dpCollectAux :
    List (String × List String) → List (String × List ℚ)
      → Option (List (String × List ℚ))
  | [], m => some m
  | f :: fs, m =>
    match collectLines f.2 m with
    | none => none
    | some m2 => dpCollectAux fs m2

/-- Embedding of `DataProvider.collect`: scan every file whose name
starts with the configured prefix (the glob `'{prefix}*'`), in directory
order, line by line. A file is a pair of its name and the lines its
iteration yields. -/
def dpCollect (files : List (String × List String)) (stem : String) :
    Option (List (String × List ℚ)) :=
  dpCollectAux (files.filter (fun f => stem.data.isPrefixOf f.1.data)) []

/-- The values that the lines matching the pattern contribute to key
`k`, in scan order. -/
def extractedVals (lines : List String) (k : String) : List ℚ :=
  lines.filterMap (fun l =>
    match lineMatch l.data with
    | none => none
    | some g => if (⟨g.1⟩ : String) = k then parseVal g.2 else none)

/-- The lines `DataProvider.collect` scans: those of the files whose
names start with the prefix, in directory order. -/
def scannedLines (files : List (String × List String)) (stem : String) :
    List String :=
  (files.filter (fun f => stem.data.isPrefixOf f.1.data)).flatMap (fun f => f.2)

theorem lookup_cons_eq {β : Type} (k : String) (b : β) (es : List (String × β)) :
    List.lookup k ((k, b) :: es) = some b := by
  simp [List.lookup]

theorem lookup_cons_ne {β : Type} (k a : String) (b : β) (es : List (String × β))
    (h : k ≠ a) : List.lookup k ((a, b) :: es) = List.lookup k es := by
  have hb : (k == a) = false := beq_eq_false_iff_ne.mpr h
  simp [List.lookup, hb]

theorem lookup_append_of_none {β : Type} (l1 l2 : List (String × β)) (k : String)
    (h : l1.lookup k = none) : (l1 ++ l2).lookup k = l2.lookup k := by
  induction l1 with
  | nil => rfl
  | cons a t ih =>
    obtain ⟨k1, v1⟩ := a
    by_cases hk : k = k1
    · rw [hk] at h
      rw [lookup_cons_eq] at h
      cases h
    · rw [List.cons_append, lookup_cons_ne _ _ _ _ hk]
      rw [lookup_cons_ne _ _ _ _ hk] at h
      exact ih h

theorem lookup_map_append_same (m : List (String × List ℚ)) (k : String) (v : ℚ) :
    (m.map (fun e => if e.1 = k then (e.1, e.2 ++ [v]) else e)).lookup k
      = (m.lookup k).map (fun l => l ++ [v]) := by
  induction m with
  | nil => rfl
  | cons a t ih =>
    obtain ⟨k1, v1⟩ := a
    by_cases hk : k1 = k
    · subst hk
      rw [List.map_cons]
      rw [show (if (k1, v1).1 = k1 then ((k1, v1).1, (k1, v1).2 ++ [v]) else (k1, v1))
          = (k1, v1 ++ [v]) by simp]
      rw [lookup_cons_eq, lookup_cons_eq]
      rfl
    · rw [List.map_cons]
      rw [show (if (k1, v1).1 = k then ((k1, v1).1, (k1, v1).2 ++ [v]) else (k1, v1))
          = (k1, v1) by simp [hk]]
      rw [lookup_cons_ne _ _ _ _ (fun he => hk he.symm),
        lookup_cons_ne _ _ _ _ (fun he => hk he.symm)]
      exact ih

theorem lookup_map_append_other (m : List (String × List ℚ)) (k q : String) (v : ℚ)
    (hne : q ≠ k) :
    (m.map (fun e => if e.1 = k then (e.1, e.2 ++ [v]) else e)).lookup q
      = m.lookup q := by
  induction m with
  | nil => rfl
  | cons a t ih =>
    obtain ⟨k1, v1⟩ := a
    by_cases hk : k1 = k
    · subst hk
      rw [List.map_cons]
      rw [show (if (k1, v1).1 = k1 then ((k1, v1).1, (k1, v1).2 ++ [v]) else (k1, v1))
          = (k1, v1 ++ [v]) by simp]
      rw [lookup_cons_ne _ _ _ _ hne, lookup_cons_ne _ _ _ _ hne]
      exact ih
    · rw [List.map_cons]
      rw [show (if (k1, v1).1 = k then ((k1, v1).1, (k1, v1).2 ++ [v]) else (k1, v1))
          = (k1, v1) by simp [hk]]
      by_cases hq : q = k1
      · subst hq
        rw [lookup_cons_eq, lookup_cons_eq]
      · rw [lookup_cons_ne _ _ _ _ hq, lookup_cons_ne _ _ _ _ hq]
        exact ih

theorem lookup_insertVal_same (m : List (String × List ℚ)) (k : String) (v : ℚ) :
    (insertVal m k v).lookup k = some ((m.lookup k).getD [] ++ [v]) := by
  rw [insertVal]
  cases h : m.lookup k with
  | none =>
    rw [if_neg (by simp)]
    rw [lookup_append_of_none m _ k h, lookup_cons_eq]
    rfl
  | some old =>
    rw [if_pos (by simp)]
    rw [lookup_map_append_same, h]
    rfl

theorem lookup_append_singleton_other {β : Type} (m : List (String × β))
    (k q : String) (b : β) (hne : q ≠ k) :
    (m ++ [(k, b)]).lookup q = m.lookup q := by
  induction m with
  | nil =>
    rw [List.nil_append, lookup_cons_ne _ _ _ _ hne]
  | cons a t ih =>
    obtain ⟨k1, v1⟩ := a
    by_cases hk : q = k1
    · subst hk
      rw [List.cons_append, lookup_cons_eq, lookup_cons_eq]
    · rw [List.cons_append, lookup_cons_ne _ _ _ _ hk, lookup_cons_ne _ _ _ _ hk]
      exact ih

theorem lookup_insertVal_other (m : List (String × List ℚ)) (k q : String) (v : ℚ)
    (hne : q ≠ k) : (insertVal m k v).lookup q = m.lookup q := by
  rw [insertVal]
  by_cases h : (m.lookup k).isSome
  · rw [if_pos h]
    exact lookup_map_append_other m k q v hne
  · rw [if_neg h]
    exact lookup_append_singleton_other m k q [v] hne

theorem collectLines_lookup (ls : List String) :
    ∀ (m m2 : List (String × List ℚ)), collectLines ls m = some m2 →
    ∀ k, (m2.lookup k).getD [] = (m.lookup k).getD [] ++ extractedVals ls k ∧
      (m2.lookup k = none ↔ m.lookup k = none ∧ extractedVals ls k = []) := by
  induction ls with
  | nil =>
    intro m m2 h k
    rw [collectLines] at h
    injection h with h
    subst h
    constructor
    · simp [extractedVals]
    · simp [extractedVals]
  | cons l ls ih =>
    intro m m2 h k
    cases hm : lineMatch l.data with
    | none =>
      simp only [collectLines, hm] at h
      have he : extractedVals (l :: ls) k = extractedVals ls k := by
        rw [extractedVals, List.filterMap_cons, hm]
        rfl
      rw [he]
      exact ih m m2 h k
    | some g =>
      cases hv : parseVal g.2 with
      | none =>
        simp only [collectLines, hm, hv] at h
        cases h
      | some v =>
        simp only [collectLines, hm, hv] at h
        have ih2 := ih (insertVal m ⟨g.1⟩ v) m2 h k
        by_cases hk : (⟨g.1⟩ : String) = k
        · rw [hk] at ih2
          have he : extractedVals (l :: ls) k = v :: extractedVals ls k := by
            rw [extractedVals, List.filterMap_cons, hm]
            simp only [if_pos hk, hv]
            rfl
          rw [he]
          constructor
          · rw [ih2.1, lookup_insertVal_same]
            rw [show (some ((m.lookup k).getD [] ++ [v])).getD []
                = (m.lookup k).getD [] ++ [v] from rfl]
            rw [List.append_assoc, List.singleton_append]
          · have h2 := ih2.2
            rw [lookup_insertVal_same] at h2
            constructor
            · intro hn
              rcases h2.mp hn with ⟨habs, _⟩
              cases habs
            · rintro ⟨_, habs⟩
              cases habs
        · have he : extractedVals (l :: ls) k = extractedVals ls k := by
            rw [extractedVals, List.filterMap_cons, hm]
            simp only [if_neg hk]
            rfl
          rw [he]
          rw [lookup_insertVal_other m ⟨g.1⟩ k v (Ne.symm hk)] at ih2
          exact ih2

theorem collectLines_append (a b : List String) :
    ∀ m, collectLines (a ++ b) m
      = (collectLines a m).bind (fun m1 => collectLines b m1) := by
  induction a with
  | nil => intro m; rfl
  | cons l t ih =>
    intro m
    rw [List.cons_append]
    cases hm : lineMatch l.data with
    | none =>
      simp only [collectLines, hm]
      exact ih m
    | some g =>
      cases hv : parseVal g.2 with
      | none =>
        simp only [collectLines, hm, hv]
        rfl
      | some v =>
        simp only [collectLines, hm, hv]
        exact ih _

theorem dpCollectAux_flat (fs : List (String × List String)) :
    ∀ m, dpCollectAux fs m = collectLines (fs.flatMap (fun f => f.2)) m := by
  induction fs with
  | nil => intro m; rfl
  | cons f t ih =>
    intro m
    rw [List.flatMap_cons, collectLines_append, dpCollectAux]
    cases hc : collectLines f.2 m with
    | none => rfl
    | some m1 =>
      rw [show (some m1).bind (fun m2 => collectLines (t.flatMap (fun f => f.2)) m2)
          = collectLines (t.flatMap (fun f => f.2)) m1 from rfl]
      exact ih m1

/-- C1: when `DataProvider.collect` succeeds (every matched value is a
numeric string, so no `float()` call raises), the mapping it returns
stores under each key exactly the values parsed, in scan order, from the
lines matching the `"[Performance] <key> <value> ms"` pattern across the
files whose names start with the configured prefix; a key is present
exactly when some scanned line matched with that key, and lines that do
not match contribute nothing. -/
theorem dpCollect_groups (files : List (String × List String)) (stem : String)
    (m : List (String × List ℚ)) (h : dpCollect files stem = some m)
    (k : String) :
    (m.lookup k).getD [] = extractedVals (scannedLines files stem) k ∧
    (m.lookup k = none ↔ extractedVals (scannedLines files stem) k = []) := by
  rw [dpCollect, dpCollectAux_flat] at h
  have h2 := collectLines_lookup _ _ _ h k
  rw [show (List.lookup k ([] : List (String × List ℚ))) = none from rfl] at h2
  simpa [scannedLines] using h2

/-- Witness for C1 at a concrete directory: two files match the prefix
"log_" (one with two matching lines and a non-matching line, one with
one matching line), a third file does not match the prefix. -/
theorem dpCollect_groups_witness :
    dpCollect
        [("log_000.log", ["[Performance] startup 12 ms\n", "noise\n"]),
         ("other.txt", ["[Performance] skip 1 ms\n"]),
         ("log_001.log", ["[Performance] startup 15 ms\n"])] "log_"
      = some [("startup", [(12 : ℚ), 15])] ∧
    ((([(("startup" : String), [(12 : ℚ), 15])]).lookup "startup").getD []
        = extractedVals
            (scannedLines
              [("log_000.log", ["[Performance] startup 12 ms\n", "noise\n"]),
               ("other.txt", ["[Performance] skip 1 ms\n"]),
               ("log_001.log", ["[Performance] startup 15 ms\n"])] "log_")
            "startup" ∧
      (([(("startup" : String), [(12 : ℚ), 15])]).lookup "startup" = none ↔
        extractedVals
            (scannedLines
              [("log_000.log", ["[Performance] startup 12 ms\n", "noise\n"]),
               ("other.txt", ["[Performance] skip 1 ms\n"]),
               ("log_001.log", ["[Performance] startup 15 ms\n"])] "log_")
            "startup" = [])) :=
  ⟨by decide, dpCollect_groups _ "log_" _ (by decide) "startup"⟩

end PerfInfo
